import Mathlib

/-!
Shallow embedding of the mkdocs-katex-ssr plugin core
(src/mkdocs_katex_ssr/plugin.py): the chunked batch-rendering IPC loop
of KatexSsrPlugin._render_latex_batch, the cache-key / delimiter /
cache-lookup / write-back pipeline of on_post_page, the cache
initialization of on_config, and the shutdown sequence of on_post_build.

Python strings are modelled as lists of characters; the renderer process
and its responses are modelled as an environment (one ChunkResponse per
chunk read); the SQLite cache table is modelled as an association list
with INSERT OR REPLACE semantics; the SHA-256 digest from hashlib
(external library code) is abstracted as a function parameter H over the
exact string the code feeds to it.
-/

namespace KatexSSR

/-- Python whitespace predicate used by str.strip (ASCII whitespace set of CPython). -/
def pySpace (c : Char) : Bool :=
  c == ' ' || c == '\t' || c == '\n' || c == '\r' || c == '\x0b' || c == '\x0c'

/-- Python str.strip: drop leading and trailing whitespace (plugin.py line 289). -/
def pyStrip (l : List Char) : List Char :=
  (l.dropWhile pySpace).rdropWhile pySpace

/-- Python str.startswith on character lists. -/
def startsW (p l : List Char) : Bool := p.isPrefixOf l

/-- Python str.endswith on character lists: p is a suffix of l. -/
def endsW (p l : List Char) : Bool := p.reverse.isPrefixOf l.reverse

/-- The delimiter classifier of on_post_page (plugin.py lines 274-287):
returns the extracted latex and the display mode. Python content[a:-b]
equals dropping a from the front and b from the back. -/
def classify (content : List Char) : List Char × Bool :=
  if startsW ['\\', '('] content && endsW ['\\', ')'] content then
    ((content.drop 2).rdrop 2, false)
  else if startsW ['\\', '['] content && endsW ['\\', ']'] content then
    ((content.drop 2).rdrop 2, true)
  else if startsW ['$'] content && endsW ['$'] content then
    ((content.drop 1).rdrop 1, false)
  else if startsW ['$', '$'] content && endsW ['$', '$'] content then
    ((content.drop 2).rdrop 2, true)
  else (content, false)

/-- Which branch of the delimiter if/elif chain fires (0-4 in source order,
4 being the final else). Mirrors classify's guards exactly. -/
def classifyBranch (content : List Char) : Nat :=
  if startsW ['\\', '('] content && endsW ['\\', ')'] content then 0
  else if startsW ['\\', '['] content && endsW ['\\', ']'] content then 1
  else if startsW ['$'] content && endsW ['$'] content then 2
  else if startsW ['$', '$'] content && endsW ['$', '$'] content then 3
  else 4

/-- The exact string passed to hashlib.sha256 (plugin.py line 295):
the f-string of the trimmed latex, the separator "::", and Python's
str() of the bool display mode ("True" / "False"). -/
def hashInput (latex : List Char) (displayMode : Bool) : List Char :=
  pyStrip latex ++ [':', ':'] ++
    (if displayMode then ['T', 'r', 'u', 'e'] else ['F', 'a', 'l', 's', 'e'])

/-- A per-item result object inside a successful batch response
(fields res.id, res.status, res.html with html possibly missing). -/
structure ItemResult where
  id : Nat
  status : String
  html : Option String
deriving DecidableEq

/-- Outcome of one send/read round for one chunk, as observed by the
Python try block: readline returned an empty line (eof), some statement
in the try block raised (readExn, e.g. malformed JSON), or a parsed
response whose top-level status is not success (batchError) or is
success with a list of per-item results (batchSuccess). -/
inductive ChunkResponse where
  | eof
  | readExn
  | batchError
  | batchSuccess (results : List ItemResult)
deriving DecidableEq

/-- An item of the batch_items list built by on_post_page
(plugin.py lines 308-313). -/
structure BatchItem where
  id : Nat
  latex : List Char
  displayMode : Bool
  cache_key : Option (List Char)
deriving DecidableEq

/-- Observable side effects of the batch loop, in order: a request
message written to the child's stdin, the EOF log, the process.poll
liveness check, the stderr read (drain), the stderr log, the generic
IPC-error log, a per-item KaTeX warning, and a whole-chunk warning. -/
inductive Event where
  | sent (chunk : List BatchItem)
  | eofLogged
  | polled
  | stderrDrained
  | stderrLogged
  | ipcLogged
  | itemWarned (id : Nat)
  | chunkWarned
deriving DecidableEq

/-- Environment of one _render_latex_batch call: the sequence of chunk
responses the child produces (exhaustion of the list means readline
returns empty, i.e. eof), whether process.poll() reports exit at the
moment the exception handler runs, and whether stderr holds content. -/
structure IPCEnv where
  resps : List ChunkResponse
  procExited : Bool
  stderrNonempty : Bool
deriving DecidableEq

/-- The Python dict all_results, insertion ordered, keys unique:
assignment to an existing key overwrites in place, otherwise appends. -/
abbrev Dict := List (Nat × Option String)

/-- Python dict assignment d[k] = v. -/
def dictInsert (d : Dict) (k : Nat) (v : Option String) : Dict :=
  if d.any (fun p => p.1 == k) then d.map (fun p => if p.1 == k then (k, v) else p)
  else d ++ [(k, v)]

/-- Python membership test k in d. -/
def dictMemB (d : Dict) (k : Nat) : Bool := d.any (fun p => p.1 == k)

/-- Python d[k] for a key assumed present (none when absent). -/
def dictGet (d : Dict) (k : Nat) : Option String :=
  match d.find? (fun p => p.1 == k) with
  | some p => p.2
  | none => none

/-- The inner loop over a successful response's results (plugin.py
lines 235-239): a per-item success stores res.get ("html") under
res.id, anything else is only logged. -/
def applyResults (d : Dict) (rs : List ItemResult) : Dict :=
  rs.foldl (fun d r => if r.status == "success" then dictInsert d r.id r.html else d) d

/-- The warnings emitted while walking a successful response's results. -/
def itemWarnEvents (rs : List ItemResult) : List Event :=
  rs.filterMap (fun r => if r.status == "success" then none else some (Event.itemWarned r.id))

/-- CHUNK_SIZE constant of _render_latex_batch (plugin.py line 212). -/
def CHUNK_SIZE : Nat := 500

/-- Fuel-driven chunking; fuel at least the length of the list makes it
total, mirroring items[i:i+CHUNK_SIZE] for i in range(0, len, CHUNK_SIZE). -/
def chunksOfAux {α : Type} : Nat → List α → List (List α)
  | _, [] => []
  | 0, _ :: _ => []
  | fuel + 1, a :: t => ((a :: t).take CHUNK_SIZE) :: chunksOfAux fuel ((a :: t).drop CHUNK_SIZE)

/-- The chunk partition of the pending items list. -/
def chunksOf {α : Type} (l : List α) : List (List α) := chunksOfAux l.length l

/-- Events of the except branch (plugin.py lines 242-247): poll the
process, and when it has exited read (drain) stderr, logging it when
non-empty; finally log the IPC error. -/
def exnEvents (env : IPCEnv) : List Event :=
  Event.polled ::
    ((if env.procExited then
        Event.stderrDrained :: (if env.stderrNonempty then [Event.stderrLogged] else [])
      else []) ++ [Event.ipcLogged])

/-- Results, number of request messages written, and event trace. -/
structure BatchOutcome where
  results : Dict
  sent : Nat
  events : List Event
deriving DecidableEq

/-- The chunk loop of _render_latex_batch (plugin.py lines 216-248):
one message sent per chunk, then one response consumed; eof and an
exception abort the loop (break), a non-success batch status only warns
and continues, a success response merges its per-item successes. -/
def runChunks (env : IPCEnv) : List (List BatchItem) → List ChunkResponse → Dict → BatchOutcome
  | [], _, d => ⟨d, 0, []⟩
  | c :: _, [], d => ⟨d, 1, [Event.sent c, Event.eofLogged]⟩
  | c :: cs, r :: rt, d =>
    match r with
    | ChunkResponse.eof => ⟨d, 1, [Event.sent c, Event.eofLogged]⟩
    | ChunkResponse.readExn => ⟨d, 1, Event.sent c :: exnEvents env⟩
    | ChunkResponse.batchError =>
      let rest := runChunks env cs rt d
      ⟨rest.results, rest.sent + 1, Event.sent c :: Event.chunkWarned :: rest.events⟩
    | ChunkResponse.batchSuccess res =>
      let rest := runChunks env cs rt (applyResults d res)
      ⟨rest.results, rest.sent + 1, (Event.sent c :: itemWarnEvents res) ++ rest.events⟩

/-- _render_latex_batch (plugin.py lines 206-249): guard on a live
process handle and a non-empty item list, then the chunk loop under the
lock; always returns a mapping, never raises. -/
def renderLatexBatch (process : Bool) (items : List BatchItem) (env : IPCEnv) : BatchOutcome :=
  if !process || items.isEmpty then ⟨[], 0, []⟩
  else runChunks env (chunksOf items) env.resps []

/-- The SQLite table katex_cache (hash TEXT PRIMARY KEY, html TEXT),
modelled as an association list; the primary key makes keys unique.
A stored value may be NULL because the code inserts res.get ("html"). -/
abbrev CacheDB := List (List Char × Option String)

/-- SELECT html FROM katex_cache WHERE hash=? followed by fetchone:
some row when the key is present (the row's html may itself be NULL). -/
def dbLookup (db : CacheDB) (k : List Char) : Option (Option String) :=
  (db.find? (fun p => p.1 == k)).map (fun p => p.2)

/-- INSERT OR REPLACE INTO katex_cache (plugin.py lines 323-326):
replace the row with this primary key when present, else add it. -/
def dbInsert (db : CacheDB) (k : List Char) (v : Option String) : CacheDB :=
  if db.any (fun p => p.1 == k) then db.map (fun p => if p.1 == k then (k, v) else p)
  else db ++ [(k, v)]

/-- Cache initialization in on_config (plugin.py lines 87-99): any
failure while creating the directory, opening the file or creating the
table is caught, a warning is printed, and db_conn is set to None. -/
def initCacheDb (openFails : Bool) (freshDb : CacheDB) : Option CacheDB :=
  if openFails then none else some freshDb

/-- Truthiness of item.cache_key in the write-back guard: Python's
None and the empty string are both falsy. -/
def keyTruthy : Option (List Char) → Bool
  | none => false
  | some k => !k.isEmpty

/-- Per-element work of the collection loop in on_post_page (plugin.py
lines 272-313): classify the delimiters, and when a cache connection
exists compute the SHA-256 key (digest abstracted as H) and look it up;
a hit yields a cached_results entry, otherwise a batch_items entry. -/
def processElem (H : List Char → List Char) (db : Option CacheDB) (i : Nat)
    (content : List Char) : Sum (Nat × Option String) BatchItem :=
  let lm := classify content
  match db with
  | none => Sum.inr ⟨i, lm.1, lm.2, none⟩
  | some d =>
    let key := H (hashInput lm.1 lm.2)
    match dbLookup d key with
    | some v => Sum.inl (i, v)
    | none => Sum.inr ⟨i, lm.1, lm.2, some key⟩

/-- Python enumerate starting at n. -/
def idxFrom (n : Nat) : List (List Char) → List (Nat × List Char)
  | [] => []
  | c :: t => (n, c) :: idxFrom (n + 1) t

/-- The cached_results dict: the Sum.inl outcomes in order. -/
def mkCached (steps : List (Sum (Nat × Option String) BatchItem)) : Dict :=
  steps.filterMap (fun s => match s with | Sum.inl p => some p | Sum.inr _ => none)

/-- The batch_items list: the Sum.inr outcomes in order. -/
def mkPending (steps : List (Sum (Nat × Option String) BatchItem)) : List BatchItem :=
  steps.filterMap (fun s => match s with | Sum.inr b => some b | Sum.inl _ => none)

/-- The write-back loop body (plugin.py lines 320-326): for each batch
item whose id is in batch_results and whose cache_key is truthy,
INSERT OR REPLACE its rendered html under its key. -/
def writeBack (db : CacheDB) (items : List BatchItem) (results : Dict) : CacheDB :=
  items.foldl
    (fun db item =>
      if dictMemB results item.id && keyTruthy item.cache_key then
        dbInsert db (item.cache_key.getD []) (dictGet results item.id)
      else db)
    db

/-- Environment of one on_post_page call: the abstract SHA-256 hex
digest H, the cache connection state, the IPC environment, and whether
the write-back transaction raises (rolled back by the with-statement). -/
structure PageEnv where
  H : List Char → List Char
  db : Option CacheDB
  ipc : IPCEnv
  writeFails : Bool

/-- Observables of the math pipeline of on_post_page: whether the hook
early-returned the page output unchanged, the cached_results dict, the
batch_items list, the batch outcome, and the cache table afterwards. -/
structure PageOutcome where
  unchanged : Bool
  cached : Dict
  pending : List BatchItem
  batch : BatchOutcome
  db : Option CacheDB

/-- The math-rendering path of on_post_page (plugin.py lines 259-328)
with disable false: early return when the renderer process is absent;
otherwise collect cache hits and pending items, run the batch, and
write newly rendered results back inside one transaction (a failing
transaction is rolled back and only logged). -/
def onPostPage (process : Bool) (env : PageEnv) (contents : List (List Char)) : PageOutcome :=
  if !process then ⟨true, [], [], ⟨[], 0, []⟩, env.db⟩
  else
    let steps := (idxFrom 0 contents).map (fun ic => processElem env.H env.db ic.1 ic.2)
    let cached := mkCached steps
    let pending := mkPending steps
    let batch := renderLatexBatch process pending env.ipc
    let db2 :=
      match env.db with
      | none => none
      | some d =>
        if !batch.results.isEmpty then
          if env.writeFails then some d else some (writeBack d pending batch.results)
        else some d
    ⟨false, cached, pending, batch, db2⟩

/-- A cache hit for a given element text: db_conn present and the key
row found. Independent of the element index. -/
def cacheHitB (H : List Char → List Char) (db : Option CacheDB) (content : List Char) : Bool :=
  match db with
  | none => false
  | some d => (dbLookup d (H (hashInput (classify content).1 (classify content).2))).isSome

/-- Cache hit at position k of the page's element-text list. -/
def cacheHitAt (H : List Char → List Char) (db : Option CacheDB)
    (contents : List (List Char)) (k : Nat) : Bool :=
  decide (k < contents.length) && cacheHitB H db (contents.getD k [])

/-- Whether id k received a per-item success result in a chunk the loop
actually reached and whose response parsed with top-level success. -/
def successIn : List (List BatchItem) → List ChunkResponse → Nat → Bool
  | [], _, _ => false
  | _ :: _, [], _ => false
  | _ :: cs, r :: rt, k =>
    match r with
    | ChunkResponse.eof => false
    | ChunkResponse.readExn => false
    | ChunkResponse.batchError => successIn cs rt k
    | ChunkResponse.batchSuccess res =>
      res.any (fun r => r.id == k && r.status == "success") || successIn cs rt k

/-- One step of merging a chunk response into the accumulated results. -/
def resolveStep (d : Dict) (r : ChunkResponse) : Dict :=
  match r with
  | ChunkResponse.batchSuccess res => applyResults d res
  | _ => d

/-- The results accumulated from the first j chunk responses only. -/
def resolvedUpTo (rs : List ChunkResponse) (j : Nat) : Dict :=
  (rs.take j).foldl resolveStep []

/-- The cache_key field a pending item receives. -/
def pendKey (H : List Char → List Char) (db : Option CacheDB) (c : List Char) :
    Option (List Char) :=
  match db with
  | none => none
  | some _ => some (H (hashInput (classify c).1 (classify c).2))

/-- Responses that make the loop break: empty read line or exception. -/
def isFailResp : ChunkResponse → Bool
  | ChunkResponse.eof => true
  | ChunkResponse.readExn => true
  | _ => false

/-- The shutdown actions of on_post_build (plugin.py lines 466-482). -/
inductive ShutdownStep where
  | closeStdin
  | waitWithTimeoutSecs (secs : Nat)
  | warnTimeout
  | killProc
  | waitReap
deriving DecidableEq

/-- Process shutdown in on_post_build: when a process handle exists,
close its stdin (if open), wait up to 5 seconds, and on timeout log a
warning, kill the process and wait for it without a timeout. -/
def shutdownProcess (hasProc stdinOpen exitsInTime : Bool) : List ShutdownStep :=
  if hasProc then
    (if stdinOpen then [ShutdownStep.closeStdin] else []) ++
      (if exitsInTime then [ShutdownStep.waitWithTimeoutSecs 5]
       else [ShutdownStep.waitWithTimeoutSecs 5, ShutdownStep.warnTimeout,
             ShutdownStep.killProc, ShutdownStep.waitReap])
  else []

/-- The cache key as computed on plugin.py lines 295-296, with the
SHA-256 hex digest abstracted as H (hashlib is external library code;
the spec assumes its collision-freedom). -/
def cacheKey (H : List Char → List Char) (latex : List Char) (displayMode : Bool) : List Char :=
  H (hashInput latex displayMode)

/-! ## General lemmas -/

theorem any_fst_iff (d : Dict) (k : Nat) :
    d.any (fun p => p.1 == k) = true ↔ ∃ p ∈ d, p.1 = k := by
  simp [List.any_eq_true]

theorem dictMemB_insert_iff (d : Dict) (k : Nat) (v : Option String) (k' : Nat) :
    dictMemB (dictInsert d k v) k' = true ↔ (k' = k ∨ dictMemB d k' = true) := by
  unfold dictInsert dictMemB
  by_cases h : d.any (fun p => p.1 == k) = true
  · rw [if_pos h, List.any_map]
    rw [any_fst_iff] at h
    obtain ⟨q, hq, hqk⟩ := h
    simp only [List.any_eq_true, Function.comp]
    constructor
    · rintro ⟨p, hp, hfp⟩
      by_cases hk : p.1 = k
      · left
        simp [hk] at hfp
        exact hfp.symm
      · right
        refine ⟨p, hp, ?_⟩
        simpa [hk] using hfp
    · rintro (rfl | ⟨p, hp, hpk⟩)
      · exact ⟨q, hq, by simp [hqk]⟩
      · by_cases hk : p.1 = k
        · exact ⟨p, hp, by simp [hk, hk ▸ hpk]⟩
        · exact ⟨p, hp, by simp [hk, hpk]⟩
  · rw [if_neg h]
    simp only [List.any_append, List.any_cons, List.any_nil, Bool.or_eq_true,
      Bool.or_false, beq_iff_eq]
    constructor
    · rintro (h1 | h2)
      · exact Or.inr h1
      · exact Or.inl h2.symm
    · rintro (rfl | h1)
      · exact Or.inr rfl
      · exact Or.inl h1

theorem dictMemB_applyResults (d : Dict) (rs : List ItemResult) (k : Nat) :
    dictMemB (applyResults d rs) k = true ↔
      ((∃ r ∈ rs, r.id = k ∧ r.status = "success") ∨ dictMemB d k = true) := by
  induction rs generalizing d with
  | nil => simp [applyResults]
  | cons r rs ih =>
    have hstep : applyResults d (r :: rs) =
        applyResults (if r.status == "success" then dictInsert d r.id r.html else d) rs := rfl
    rw [hstep]
    by_cases hs : r.status = "success"
    · rw [if_pos (by simpa using hs), ih]
      rw [dictMemB_insert_iff]
      constructor
      · rintro (⟨x, hx, h1, h2⟩ | (rfl | h))
        · exact Or.inl ⟨x, List.mem_cons_of_mem _ hx, h1, h2⟩
        · exact Or.inl ⟨r, List.mem_cons_self _ _, rfl, hs⟩
        · exact Or.inr h
      · rintro (⟨x, hx, h1, h2⟩ | h)
        · rcases List.mem_cons.1 hx with rfl | hx
          · exact Or.inr (Or.inl h1.symm)
          · exact Or.inl ⟨x, hx, h1, h2⟩
        · exact Or.inr (Or.inr h)
    · rw [if_neg (by simpa using hs), ih]
      constructor
      · rintro (⟨x, hx, h1, h2⟩ | h)
        · exact Or.inl ⟨x, List.mem_cons_of_mem _ hx, h1, h2⟩
        · exact Or.inr h
      · rintro (⟨x, hx, h1, h2⟩ | h)
        · rcases List.mem_cons.1 hx with rfl | hx
          · exact absurd h2 hs
          · exact Or.inl ⟨x, hx, h1, h2⟩
        · exact Or.inr h

theorem runChunks_results_mem (env : IPCEnv) (cs : List (List BatchItem))
    (rs : List ChunkResponse) (d : Dict) (k : Nat) :
    dictMemB (runChunks env cs rs d).results k = true ↔
      (successIn cs rs k = true ∨ dictMemB d k = true) := by
  induction cs generalizing rs d with
  | nil => simp [runChunks, successIn]
  | cons c cs ih =>
    cases rs with
    | nil => simp [runChunks, successIn]
    | cons r rt =>
      cases r with
      | eof => simp [runChunks, successIn]
      | readExn => simp [runChunks, successIn]
      | batchError => simp [runChunks, successIn, ih]
      | batchSuccess res =>
        simp only [runChunks, successIn, ih, dictMemB_applyResults,
          Bool.or_eq_true, List.any_eq_true]
        constructor
        · rintro (h1 | (⟨r, hr, hid⟩ | h2))
          · exact Or.inl (Or.inr h1)
          · exact Or.inl (Or.inl ⟨r, hr, by simpa using hid⟩)
          · exact Or.inr h2
        · rintro ((⟨r, hr, hid⟩ | h1) | h2)
          · exact Or.inr (Or.inl ⟨r, hr, by simpa using hid⟩)
          · exact Or.inl h1
          · exact Or.inr (Or.inr h2)

theorem chunksOfAux_congr {α : Type} (f1 f2 : Nat) (l : List α)
    (h1 : l.length ≤ f1) (h2 : l.length ≤ f2) : chunksOfAux f1 l = chunksOfAux f2 l := by
  induction f1 generalizing f2 l with
  | zero =>
    cases l with
    | nil => cases f2 <;> rfl
    | cons a t => simp at h1
  | succ g1 ih =>
    cases l with
    | nil => cases f2 <;> rfl
    | cons a t =>
      cases f2 with
      | zero => simp at h2
      | succ g2 =>
        show _ :: chunksOfAux g1 _ = _ :: chunksOfAux g2 _
        have hd : ((a :: t).drop CHUNK_SIZE).length ≤ g1 ∧
            ((a :: t).drop CHUNK_SIZE).length ≤ g2 := by
          simp only [List.length_drop, List.length_cons] at *
          unfold CHUNK_SIZE
          omega
        rw [ih _ _ hd.1 hd.2]

theorem chunksOf_cons_eq {α : Type} (l : List α) (h : l ≠ []) :
    chunksOf l = l.take CHUNK_SIZE :: chunksOf (l.drop CHUNK_SIZE) := by
  cases l with
  | nil => exact absurd rfl h
  | cons a t =>
    show chunksOfAux (t.length + 1) (a :: t) = _
    show _ :: chunksOfAux t.length ((a :: t).drop CHUNK_SIZE) = _
    rw [chunksOfAux_congr t.length ((a :: t).drop CHUNK_SIZE).length _ (by simp only [List.length_drop, List.length_cons, CHUNK_SIZE]; omega) le_rfl]
    rfl

theorem chunksOfAux_join {α : Type} (fuel : Nat) (l : List α) (h : l.length ≤ fuel) :
    (chunksOfAux fuel l).flatten = l := by
  induction fuel generalizing l with
  | zero =>
    cases l with
    | nil => rfl
    | cons a t => simp at h
  | succ g ih =>
    cases l with
    | nil => rfl
    | cons a t =>
      show ((a :: t).take CHUNK_SIZE ++ (chunksOfAux g ((a :: t).drop CHUNK_SIZE)).flatten) = _
      rw [ih _ (by simp [CHUNK_SIZE] at *; omega)]
      exact List.take_append_drop _ _

theorem chunksOf_join {α : Type} (l : List α) : (chunksOf l).flatten = l :=
  chunksOfAux_join l.length l le_rfl

theorem chunksOfAux_length {α : Type} (fuel : Nat) (l : List α) (h : l.length ≤ fuel) :
    (chunksOfAux fuel l).length = (l.length + (CHUNK_SIZE - 1)) / CHUNK_SIZE := by
  induction fuel generalizing l with
  | zero =>
    cases l with
    | nil => simp [chunksOfAux, CHUNK_SIZE]
    | cons a t => simp at h
  | succ g ih =>
    cases l with
    | nil => simp [chunksOfAux, CHUNK_SIZE]
    | cons a t =>
      show (chunksOfAux g ((a :: t).drop CHUNK_SIZE)).length + 1 = _
      rw [ih _ (by simp [CHUNK_SIZE] at *; omega)]
      simp only [List.length_drop, List.length_cons]
      unfold CHUNK_SIZE
      omega

theorem chunksOf_length {α : Type} (l : List α) :
    (chunksOf l).length = (l.length + (CHUNK_SIZE - 1)) / CHUNK_SIZE :=
  chunksOfAux_length l.length l le_rfl

theorem chunksOfAux_size {α : Type} (fuel : Nat) (l : List α) (h : l.length ≤ fuel) :
    ∀ c ∈ chunksOfAux fuel l, c.length ≤ CHUNK_SIZE := by
  induction fuel generalizing l with
  | zero =>
    cases l with
    | nil => intro c hc; simp [chunksOfAux] at hc
    | cons a t => simp at h
  | succ g ih =>
    cases l with
    | nil => intro c hc; simp [chunksOfAux] at hc
    | cons a t =>
      intro c hc
      rcases List.mem_cons.1 hc with rfl | hc
      · rw [List.length_take]; omega
      · exact ih _ (by simp [CHUNK_SIZE] at *; omega) c hc

theorem chunksOf_size {α : Type} (l : List α) : ∀ c ∈ chunksOf l, c.length ≤ CHUNK_SIZE :=
  chunksOfAux_size l.length l le_rfl

theorem runChunks_sent_all (env : IPCEnv) (cs : List (List BatchItem))
    (rs : List ChunkResponse) (d : Dict)
    (h : ∀ j < cs.length, isFailResp (rs.getD j ChunkResponse.eof) = false) :
    (runChunks env cs rs d).sent = cs.length := by
  induction cs generalizing rs d with
  | nil => rfl
  | cons c cs ih =>
    cases rs with
    | nil =>
      have := h 0 (by simp)
      simp [isFailResp] at this
    | cons r rt =>
      have h0 := h 0 (by simp)
      cases r with
      | eof => simp [isFailResp] at h0
      | readExn => simp [isFailResp] at h0
      | batchError =>
        show (runChunks env cs rt d).sent + 1 = cs.length + 1
        rw [ih rt d (fun j hj => h (j + 1) (by simpa using Nat.succ_lt_succ hj))]
      | batchSuccess res =>
        show (runChunks env cs rt (applyResults d res)).sent + 1 = cs.length + 1
        rw [ih rt _ (fun j hj => h (j + 1) (by simpa using Nat.succ_lt_succ hj))]

theorem runChunks_abort (env : IPCEnv) (cs : List (List BatchItem))
    (rs : List ChunkResponse) (d : Dict) (j : Nat) (hj : j < cs.length)
    (hfail : isFailResp (rs.getD j ChunkResponse.eof) = true)
    (hpre : ∀ i < j, isFailResp (rs.getD i ChunkResponse.eof) = false) :
    (runChunks env cs rs d).sent = j + 1 ∧
      (runChunks env cs rs d).results = (rs.take j).foldl resolveStep d := by
  induction cs generalizing rs d j with
  | nil => simp at hj
  | cons c cs ih =>
    cases j with
    | zero =>
      cases rs with
      | nil => exact ⟨rfl, rfl⟩
      | cons r rt =>
        cases r with
        | eof => exact ⟨rfl, rfl⟩
        | readExn => exact ⟨rfl, rfl⟩
        | batchError => simp [isFailResp] at hfail
        | batchSuccess res => simp [isFailResp] at hfail
    | succ j =>
      cases rs with
      | nil =>
        have := hpre 0 (Nat.succ_pos _)
        simp [isFailResp] at this
      | cons r rt =>
        have h0 := hpre 0 (Nat.succ_pos _)
        have hj' : j < cs.length := Nat.lt_of_succ_lt_succ hj
        have hfail' : isFailResp (rt.getD j ChunkResponse.eof) = true := hfail
        have hpre' : ∀ i < j, isFailResp (rt.getD i ChunkResponse.eof) = false :=
          fun i hi => hpre (i + 1) (Nat.succ_lt_succ hi)
        cases r with
        | eof => simp [isFailResp] at h0
        | readExn => simp [isFailResp] at h0
        | batchError =>
          obtain ⟨hs, hr⟩ := ih rt d j hj' hfail' hpre'
          refine ⟨?_, ?_⟩
          · show (runChunks env cs rt d).sent + 1 = j + 1 + 1
            rw [hs]
          · show (runChunks env cs rt d).results = _
            rw [hr]
            rfl
        | batchSuccess res =>
          obtain ⟨hs, hr⟩ := ih rt (applyResults d res) j hj' hfail' hpre'
          refine ⟨?_, ?_⟩
          · show (runChunks env cs rt (applyResults d res)).sent + 1 = j + 1 + 1
            rw [hs]
          · show (runChunks env cs rt (applyResults d res)).results = _
            rw [hr]
            rfl

theorem itemWarn_shape (rs : List ItemResult) :
    ∀ e ∈ itemWarnEvents rs, ∃ i, e = Event.itemWarned i := by
  intro e he
  unfold itemWarnEvents at he
  rw [List.mem_filterMap] at he
  obtain ⟨r, _, hr⟩ := he
  by_cases hs : (r.status == "success") = true
  · rw [if_pos hs] at hr
    cases hr
  · rw [if_neg hs] at hr
    exact ⟨r.id, (Option.some_inj.1 hr).symm⟩

theorem polled_notin_itemWarn (rs : List ItemResult) : Event.polled ∉ itemWarnEvents rs :=
  fun h => by obtain ⟨i, hi⟩ := itemWarn_shape rs Event.polled h; exact Event.noConfusion hi

theorem drained_notin_itemWarn (rs : List ItemResult) : Event.stderrDrained ∉ itemWarnEvents rs :=
  fun h => by obtain ⟨i, hi⟩ := itemWarn_shape rs Event.stderrDrained h; exact Event.noConfusion hi

theorem stderrLog_notin_itemWarn (rs : List ItemResult) : Event.stderrLogged ∉ itemWarnEvents rs :=
  fun h => by obtain ⟨i, hi⟩ := itemWarn_shape rs Event.stderrLogged h; exact Event.noConfusion hi

theorem runChunks_events_fail (env : IPCEnv) (cs : List (List BatchItem))
    (rs : List ChunkResponse) (d : Dict) (j : Nat) (hj : j < cs.length)
    (hfail : isFailResp (rs.getD j ChunkResponse.eof) = true)
    (hpre : ∀ i < j, isFailResp (rs.getD i ChunkResponse.eof) = false) :
    ((Event.polled ∈ (runChunks env cs rs d).events) ↔
        rs.getD j ChunkResponse.eof = ChunkResponse.readExn) ∧
    ((Event.stderrDrained ∈ (runChunks env cs rs d).events) ↔
        (rs.getD j ChunkResponse.eof = ChunkResponse.readExn ∧ env.procExited = true)) ∧
    ((Event.stderrLogged ∈ (runChunks env cs rs d).events) ↔
        (rs.getD j ChunkResponse.eof = ChunkResponse.readExn ∧ env.procExited = true ∧
          env.stderrNonempty = true)) := by
  induction cs generalizing rs d j with
  | nil => simp at hj
  | cons c cs ih =>
    cases j with
    | zero =>
      cases rs with
      | nil => simp [runChunks]
      | cons r rt =>
        cases r with
        | eof => simp [runChunks]
        | readExn =>
          cases hpe : env.procExited <;> cases hsn : env.stderrNonempty <;>
            simp [runChunks, exnEvents, hpe, hsn]
        | batchError => simp [isFailResp] at hfail
        | batchSuccess res => simp [isFailResp] at hfail
    | succ j =>
      cases rs with
      | nil =>
        have := hpre 0 (Nat.succ_pos _)
        simp [isFailResp] at this
      | cons r rt =>
        have h0 := hpre 0 (Nat.succ_pos _)
        have hj' : j < cs.length := Nat.lt_of_succ_lt_succ hj
        have hfail' : isFailResp (rt.getD j ChunkResponse.eof) = true := hfail
        have hpre' : ∀ i < j, isFailResp (rt.getD i ChunkResponse.eof) = false :=
          fun i hi => hpre (i + 1) (Nat.succ_lt_succ hi)
        cases r with
        | eof => simp [isFailResp] at h0
        | readExn => simp [isFailResp] at h0
        | batchError =>
          obtain ⟨h1, h2, h3⟩ := ih rt d j hj' hfail' hpre'
          simp only [List.getD_cons_succ]
          refine ⟨?_, ?_, ?_⟩
          · show Event.polled ∈ Event.sent c :: Event.chunkWarned ::
              (runChunks env cs rt d).events ↔ _
            rw [← h1]
            simp
          · show Event.stderrDrained ∈ Event.sent c :: Event.chunkWarned ::
              (runChunks env cs rt d).events ↔ _
            rw [← h2]
            simp
          · show Event.stderrLogged ∈ Event.sent c :: Event.chunkWarned ::
              (runChunks env cs rt d).events ↔ _
            rw [← h3]
            simp
        | batchSuccess res =>
          obtain ⟨h1, h2, h3⟩ := ih rt (applyResults d res) j hj' hfail' hpre'
          have hw1 := polled_notin_itemWarn res
          have hw2 := drained_notin_itemWarn res
          have hw3 := stderrLog_notin_itemWarn res
          simp only [List.getD_cons_succ]
          refine ⟨?_, ?_, ?_⟩
          · show Event.polled ∈ (Event.sent c :: itemWarnEvents res) ++
              (runChunks env cs rt (applyResults d res)).events ↔ _
            rw [← h1]
            simp [List.mem_append, hw1]
          · show Event.stderrDrained ∈ (Event.sent c :: itemWarnEvents res) ++
              (runChunks env cs rt (applyResults d res)).events ↔ _
            rw [← h2]
            simp [List.mem_append, hw2]
          · show Event.stderrLogged ∈ (Event.sent c :: itemWarnEvents res) ++
              (runChunks env cs rt (applyResults d res)).events ↔ _
            rw [← h3]
            simp [List.mem_append, hw3]

theorem head_dropWhile_false (p : Char → Bool) (l : List Char) :
    ∀ a s, l.dropWhile p = a :: s → p a = false := by
  induction l with
  | nil => intro a s h; cases h
  | cons x xs ih =>
    intro a s h
    by_cases hx : p x = true
    · rw [List.dropWhile_cons_of_pos hx] at h
      exact ih a s h
    · rw [List.dropWhile_cons_of_neg hx] at h
      cases h
      simpa using hx

theorem dropWhile_pyStrip (l : List Char) : (pyStrip l).dropWhile pySpace = pyStrip l := by
  unfold pyStrip
  obtain ⟨t, ht⟩ := List.rdropWhile_prefix pySpace (l.dropWhile pySpace)
  cases hR : List.rdropWhile pySpace (l.dropWhile pySpace) with
  | nil => rfl
  | cons a rt =>
    rw [hR] at ht
    have hA : l.dropWhile pySpace = a :: (rt ++ t) := by rw [← ht]; rfl
    have ha : pySpace a = false := head_dropWhile_false pySpace l a (rt ++ t) hA
    rw [List.dropWhile_cons_of_neg (by simp [ha])]

theorem pyStrip_idem (l : List Char) : pyStrip (pyStrip l) = pyStrip l := by
  show ((pyStrip l).dropWhile pySpace).rdropWhile pySpace = pyStrip l
  rw [dropWhile_pyStrip]
  show ((l.dropWhile pySpace).rdropWhile pySpace).rdropWhile pySpace = _
  rw [List.rdropWhile_idempotent]
  rfl

theorem hashInput_strip (f : List Char) (m : Bool) :
    hashInput (pyStrip f) m = hashInput f m := by
  unfold hashInput
  rw [pyStrip_idem]

theorem hashInput_mode_ne (f : List Char) (m : Bool) : hashInput f m ≠ hashInput f (!m) := by
  intro h
  have hlen := congrArg List.length h
  cases m <;> simp [hashInput] at hlen

theorem processElem_cases (H : List Char → List Char) (db : Option CacheDB) (i : Nat)
    (c : List Char) :
    (cacheHitB H db c = true ∧ ∃ v, processElem H db i c = Sum.inl (i, v)) ∨
      (cacheHitB H db c = false ∧
        processElem H db i c = Sum.inr ⟨i, (classify c).1, (classify c).2, pendKey H db c⟩) := by
  unfold processElem cacheHitB pendKey
  cases db with
  | none => exact Or.inr ⟨rfl, rfl⟩
  | some d =>
    cases hlk : dbLookup d (H (hashInput (classify c).1 (classify c).2)) with
    | none => exact Or.inr ⟨by simp [hlk], by simp [hlk]⟩
    | some v => exact Or.inl ⟨by simp [hlk], v, by simp [hlk]⟩

theorem mem_mkCached (H : List Char → List Char) (db : Option CacheDB)
    (l : List (List Char)) (n k : Nat) :
    dictMemB (mkCached ((idxFrom n l).map (fun ic => processElem H db ic.1 ic.2))) k = true ↔
      ∃ i, i < l.length ∧ k = n + i ∧ cacheHitB H db (l.getD i []) = true := by
  induction l generalizing n with
  | nil => simp [idxFrom, mkCached, dictMemB]
  | cons c t ih =>
    show dictMemB (mkCached (processElem H db n c ::
      (idxFrom (n + 1) t).map (fun ic => processElem H db ic.1 ic.2))) k = true ↔ _
    rcases processElem_cases H db n c with ⟨hhit, v, hpe⟩ | ⟨hmiss, hpe⟩
    · rw [hpe]
      show dictMemB ((n, v) ::
        mkCached ((idxFrom (n + 1) t).map (fun ic => processElem H db ic.1 ic.2))) k = true ↔ _
      unfold dictMemB
      rw [List.any_cons, Bool.or_eq_true]
      show ((n == k) = true ∨ dictMemB _ k = true) ↔ _
      rw [ih]
      constructor
      · rintro (hnk | ⟨i, hi, hk, hh⟩)
        · exact ⟨0, by simp, by simp only [beq_iff_eq] at hnk; omega, by simpa using hhit⟩
        · exact ⟨i + 1, by simp only [List.length_cons]; omega, by omega, by simpa using hh⟩
      · rintro ⟨i, hi, hk, hh⟩
        cases i with
        | zero => exact Or.inl (by simp only [beq_iff_eq]; omega)
        | succ i =>
          exact Or.inr ⟨i, by simp only [List.length_cons] at hi; omega, by omega,
            by simpa using hh⟩
    · rw [hpe]
      show dictMemB
        (mkCached ((idxFrom (n + 1) t).map (fun ic => processElem H db ic.1 ic.2))) k = true ↔ _
      rw [ih]
      constructor
      · rintro ⟨i, hi, hk, hh⟩
        exact ⟨i + 1, by simp only [List.length_cons]; omega, by omega, by simpa using hh⟩
      · rintro ⟨i, hi, hk, hh⟩
        cases i with
        | zero =>
          rw [show (c :: t).getD 0 [] = c from rfl] at hh
          rw [hh] at hmiss
          cases hmiss
        | succ i =>
          exact ⟨i, by simp only [List.length_cons] at hi; omega, by omega, by simpa using hh⟩

theorem pending_dbNone (H : List Char → List Char) (l : List (List Char)) (n : Nat) :
    mkPending ((idxFrom n l).map (fun ic => processElem H none ic.1 ic.2)) =
        (idxFrom n l).map (fun ic =>
          ⟨ic.1, (classify ic.2).1, (classify ic.2).2, none⟩) ∧
      mkCached ((idxFrom n l).map (fun ic => processElem H none ic.1 ic.2)) = [] := by
  induction l generalizing n with
  | nil => exact ⟨rfl, rfl⟩
  | cons c t ih =>
    obtain ⟨ihp, ihc⟩ := ih (n + 1)
    constructor
    · show BatchItem.mk n (classify c).1 (classify c).2 none ::
        mkPending ((idxFrom (n + 1) t).map (fun ic => processElem H none ic.1 ic.2)) = _
      rw [ihp]
      rfl
    · show mkCached ((idxFrom (n + 1) t).map (fun ic => processElem H none ic.1 ic.2)) = []
      exact ihc

theorem any_key_iff (db : CacheDB) (k : List Char) :
    db.any (fun p => p.1 == k) = true ↔ ∃ p ∈ db, p.1 = k := by
  simp [List.any_eq_true]

theorem dbInsert_keys_nodup (db : CacheDB) (k : List Char) (v : Option String)
    (h : (db.map Prod.fst).Nodup) : ((dbInsert db k v).map Prod.fst).Nodup := by
  unfold dbInsert
  by_cases hk : db.any (fun p => p.1 == k) = true
  · rw [if_pos hk]
    have hmap : (db.map (fun p => if p.1 == k then (k, v) else p)).map Prod.fst =
        db.map Prod.fst := by
      rw [List.map_map]
      apply List.map_congr_left
      intro p _
      by_cases hp : p.1 = k
      · simp [hp]
      · simp [hp]
    rw [hmap]
    exact h
  · rw [if_neg hk, List.map_append]
    have hnotin : k ∉ db.map Prod.fst := by
      intro hmem
      obtain ⟨p, hp, hpk⟩ := List.mem_map.1 hmem
      exact hk ((any_key_iff db k).2 ⟨p, hp, hpk⟩)
    refine List.Nodup.append h (List.nodup_singleton k) ?_
    intro x hx hxk
    simp at hxk
    subst hxk
    exact hnotin hx

theorem dbInsert_has_key (db : CacheDB) (k : List Char) (v : Option String) :
    (dbInsert db k v).any (fun p => p.1 == k) = true := by
  unfold dbInsert
  by_cases hk : db.any (fun p => p.1 == k) = true
  · rw [if_pos hk, List.any_map]
    obtain ⟨p, hp, hpk⟩ := (any_key_iff db k).1 hk
    rw [List.any_eq_true]
    exact ⟨p, hp, by simp [Function.comp, hpk]⟩
  · rw [if_neg hk, List.any_append]
    simp

theorem dbInsert_keeps_key (db : CacheDB) (k : List Char) (v : Option String) (k' : List Char)
    (h : db.any (fun p => p.1 == k') = true) :
    (dbInsert db k v).any (fun p => p.1 == k') = true := by
  unfold dbInsert
  by_cases hk : db.any (fun p => p.1 == k) = true
  · rw [if_pos hk, List.any_map, List.any_eq_true]
    obtain ⟨p, hp, hpk⟩ := (any_key_iff db k').1 h
    refine ⟨p, hp, ?_⟩
    show ((if p.1 == k then (k, v) else p).1 == k') = true
    by_cases hp2 : p.1 = k
    · have hkk : k = k' := by rw [← hp2, hpk]
      rw [if_pos (by simp [hp2])]
      simp [hkk]
    · rw [if_neg (by simp [hp2])]
      simp [hpk]
  · rw [if_neg hk, List.any_append]
    simp [h]

theorem writeBack_nodup (db : CacheDB) (items : List BatchItem) (results : Dict)
    (h : (db.map Prod.fst).Nodup) : ((writeBack db items results).map Prod.fst).Nodup := by
  induction items generalizing db with
  | nil => exact h
  | cons it its ih =>
    have hstep : writeBack db (it :: its) results =
        writeBack
          (if dictMemB results it.id && keyTruthy it.cache_key then
            dbInsert db (it.cache_key.getD []) (dictGet results it.id)
          else db) its results := rfl
    rw [hstep]
    by_cases hc : (dictMemB results it.id && keyTruthy it.cache_key) = true
    · rw [if_pos hc]
      exact ih _ (dbInsert_keys_nodup _ _ _ h)
    · rw [if_neg hc]
      exact ih _ h

theorem writeBack_keeps_key (db : CacheDB) (items : List BatchItem) (results : Dict)
    (k : List Char) (h : db.any (fun p => p.1 == k) = true) :
    (writeBack db items results).any (fun p => p.1 == k) = true := by
  induction items generalizing db with
  | nil => exact h
  | cons it its ih =>
    have hstep : writeBack db (it :: its) results =
        writeBack
          (if dictMemB results it.id && keyTruthy it.cache_key then
            dbInsert db (it.cache_key.getD []) (dictGet results it.id)
          else db) its results := rfl
    rw [hstep]
    by_cases hc : (dictMemB results it.id && keyTruthy it.cache_key) = true
    · rw [if_pos hc]
      exact ih _ (dbInsert_keeps_key _ _ _ _ h)
    · rw [if_neg hc]
      exact ih _ h

theorem writeBack_has_key (db : CacheDB) (items : List BatchItem) (results : Dict) :
    ∀ it ∈ items, dictMemB results it.id = true → keyTruthy it.cache_key = true →
      (writeBack db items results).any (fun p => p.1 == it.cache_key.getD []) = true := by
  induction items generalizing db with
  | nil => intro it hit; simp at hit
  | cons it0 its ih =>
    intro it hit hm hk
    have hstep : writeBack db (it0 :: its) results =
        writeBack
          (if dictMemB results it0.id && keyTruthy it0.cache_key then
            dbInsert db (it0.cache_key.getD []) (dictGet results it0.id)
          else db) its results := rfl
    rw [hstep]
    rcases List.mem_cons.1 hit with rfl | hit
    · rw [if_pos (by rw [hm, hk]; rfl)]
      exact writeBack_keeps_key _ _ _ _ (dbInsert_has_key _ _ _)
    · by_cases hc : (dictMemB results it0.id && keyTruthy it0.cache_key) = true
      · rw [if_pos hc]
        exact ih _ it hit hm hk
      · rw [if_neg hc]
        exact ih _ it hit hm hk

theorem isPrefixOf_pair_ex {a b : Char} {l : List Char} (h : [a, b].isPrefixOf l = true) :
    ∃ t, l = a :: b :: t := by
  cases l with
  | nil => simp [List.isPrefixOf] at h
  | cons x xs =>
    cases xs with
    | nil => simp [List.isPrefixOf] at h
    | cons y ys =>
      simp [List.isPrefixOf] at h
      exact ⟨ys, by rw [h.1, h.2]⟩

theorem onPostPage_eq (env : PageEnv) (contents : List (List Char)) :
    onPostPage true env contents =
      ⟨false,
        mkCached ((idxFrom 0 contents).map (fun ic => processElem env.H env.db ic.1 ic.2)),
        mkPending ((idxFrom 0 contents).map (fun ic => processElem env.H env.db ic.1 ic.2)),
        renderLatexBatch true
          (mkPending ((idxFrom 0 contents).map (fun ic => processElem env.H env.db ic.1 ic.2)))
          env.ipc,
        match env.db with
        | none => none
        | some d =>
          if !(renderLatexBatch true
              (mkPending ((idxFrom 0 contents).map (fun ic => processElem env.H env.db ic.1 ic.2)))
              env.ipc).results.isEmpty then
            if env.writeFails then some d
            else
              some (writeBack d
                (mkPending ((idxFrom 0 contents).map
                  (fun ic => processElem env.H env.db ic.1 ic.2)))
                (renderLatexBatch true
                  (mkPending ((idxFrom 0 contents).map
                    (fun ic => processElem env.H env.db ic.1 ic.2)))
                  env.ipc).results)
          else some d⟩ := rfl

theorem renderLatexBatch_mem (items : List BatchItem) (env : IPCEnv) (k : Nat) :
    dictMemB (renderLatexBatch true items env).results k = true ↔
      successIn (chunksOf items) env.resps k = true := by
  cases items with
  | nil =>
    show dictMemB ([] : Dict) k = true ↔ successIn (chunksOf ([] : List BatchItem)) env.resps k = true
    simp [dictMemB, chunksOf, chunksOfAux, successIn]
  | cons a t =>
    show dictMemB (runChunks env (chunksOf (a :: t)) env.resps []).results k = true ↔ _
    rw [runChunks_results_mem]
    simp [dictMemB]

theorem dictMemB_ne_empty (d : Dict) (k : Nat) (h : dictMemB d k = true) : d.isEmpty = false := by
  cases d with
  | nil => simp [dictMemB] at h
  | cons p t => rfl

theorem startsW_pair_to_single {a : Char} {c : List Char} (h : startsW [a, a] c = true) :
    startsW [a] c = true := by
  obtain ⟨t, rfl⟩ := isPrefixOf_pair_ex h
  simp [startsW, List.isPrefixOf]

theorem endsW_pair_to_single {a : Char} {c : List Char} (h : endsW [a, a] c = true) :
    endsW [a] c = true := by
  unfold endsW at h ⊢
  rw [show ([a, a] : List Char).reverse = [a, a] from by simp] at h
  rw [show ([a] : List Char).reverse = [a] from rfl]
  obtain ⟨t, ht⟩ := isPrefixOf_pair_ex h
  rw [ht]
  simp [List.isPrefixOf]

/-! ## Claims -/

/-- C1: for every batch, the combined mapping of the batch-render pathway
(cache hits recorded by on_post_page plus the results dict built by
_render_latex_batch) contains an id exactly when that id was a cache hit
or received a per-item success response in a chunk the loop reached;
ids with non-success per-item responses and ids of chunks never reached
after an abort are absent, with no error placeholder entry. -/
theorem c1_mapping_iff_hit_or_success (env : PageEnv) (contents : List (List Char)) (k : Nat) :
    (dictMemB (onPostPage true env contents).cached k ||
        dictMemB (onPostPage true env contents).batch.results k) = true ↔
      (cacheHitAt env.H env.db contents k = true ∨
        successIn (chunksOf (onPostPage true env contents).pending) env.ipc.resps k = true) := by
  have hcached : dictMemB (onPostPage true env contents).cached k = true ↔
      cacheHitAt env.H env.db contents k = true := by
    show dictMemB (mkCached ((idxFrom 0 contents).map
      (fun ic => processElem env.H env.db ic.1 ic.2))) k = true ↔ _
    rw [mem_mkCached]
    unfold cacheHitAt
    constructor
    · rintro ⟨i, hi, hk, hh⟩
      have hki : k = i := by omega
      subst hki
      rw [Bool.and_eq_true, decide_eq_true_iff]
      exact ⟨hi, hh⟩
    · intro h
      rw [Bool.and_eq_true, decide_eq_true_iff] at h
      exact ⟨k, h.1, by omega, h.2⟩
  have hbatch : dictMemB (onPostPage true env contents).batch.results k = true ↔
      successIn (chunksOf (onPostPage true env contents).pending) env.ipc.resps k = true := by
    show dictMemB (renderLatexBatch true (mkPending ((idxFrom 0 contents).map
      (fun ic => processElem env.H env.db ic.1 ic.2))) env.ipc).results k = true ↔ _
    exact renderLatexBatch_mem _ env.ipc k
  rw [Bool.or_eq_true, hcached, hbatch]

/-- C2: for a non-empty pending list of N items and CHUNK_SIZE = 500, the
loop issues exactly ceil(N/500) request messages (when no read fails),
each chunk has at most 500 items, chunks preserve the original order, and
the ids across all chunks are exactly the original ids, once each. -/
theorem c2_chunk_partition (items : List BatchItem) (env : IPCEnv)
    (hne : items ≠ [])
    (hok : ∀ j < (chunksOf items).length, isFailResp (env.resps.getD j ChunkResponse.eof) = false) :
    (renderLatexBatch true items env).sent = (items.length + (CHUNK_SIZE - 1)) / CHUNK_SIZE ∧
      (chunksOf items).length = (items.length + (CHUNK_SIZE - 1)) / CHUNK_SIZE ∧
      (∀ c ∈ chunksOf items, c.length ≤ CHUNK_SIZE) ∧
      (chunksOf items).flatten = items ∧
      ((chunksOf items).map (fun c => c.map BatchItem.id)).flatten = items.map BatchItem.id := by
  have hlen := chunksOf_length items
  have hjoin := chunksOf_join items
  have hempty : items.isEmpty = false := by
    cases items
    · exact absurd rfl hne
    · rfl
  refine ⟨?_, hlen, chunksOf_size items, hjoin, ?_⟩
  · show (if !true || items.isEmpty then (⟨[], 0, []⟩ : BatchOutcome)
      else runChunks env (chunksOf items) env.resps []).sent = _
    rw [hempty]
    show (runChunks env (chunksOf items) env.resps []).sent = _
    rw [runChunks_sent_all env _ _ _ hok, hlen]
  · conv_rhs => rw [← hjoin]
    rw [List.map_flatten]

/-- C2 witness: a singleton pending list with one successful response. -/
theorem c2_chunk_partition_witness :
    ([⟨0, ['x'], false, none⟩] : List BatchItem) ≠ [] ∧
      (∀ j < (chunksOf ([⟨0, ['x'], false, none⟩] : List BatchItem)).length,
        isFailResp (([ChunkResponse.batchSuccess []] : List ChunkResponse).getD j
          ChunkResponse.eof) = false) ∧
      (renderLatexBatch true [⟨0, ['x'], false, none⟩]
        ⟨[ChunkResponse.batchSuccess []], false, false⟩).sent =
        (([⟨0, ['x'], false, none⟩] : List BatchItem).length + (CHUNK_SIZE - 1)) / CHUNK_SIZE :=
  ⟨by decide, by decide,
    (c2_chunk_partition [⟨0, ['x'], false, none⟩] ⟨[ChunkResponse.batchSuccess []], false, false⟩
      (by decide) (by decide)).1⟩

/-- C3: when reading the response of chunk j fails (empty line or an
exception) and all earlier chunks succeeded, the loop sends no message
past chunk j (sent = j + 1), returns exactly the results resolved from
the first j chunks, leaves every other id absent, and, being a total
function of the environment, lets no exception escape. -/
theorem c3_abort_keeps_resolved (items : List BatchItem) (env : IPCEnv) (j : Nat)
    (hj : j < (chunksOf items).length)
    (hfail : isFailResp (env.resps.getD j ChunkResponse.eof) = true)
    (hpre : ∀ i < j, isFailResp (env.resps.getD i ChunkResponse.eof) = false) :
    (renderLatexBatch true items env).sent = j + 1 ∧
      (renderLatexBatch true items env).results = resolvedUpTo env.resps j ∧
      (∀ k, dictMemB (renderLatexBatch true items env).results k = true ↔
        successIn (chunksOf items) env.resps k = true) := by
  have hne : items.isEmpty = false := by
    cases items
    · simp [chunksOf, chunksOfAux] at hj
    · rfl
  have hrb : renderLatexBatch true items env = runChunks env (chunksOf items) env.resps [] := by
    show (if !true || items.isEmpty then (⟨[], 0, []⟩ : BatchOutcome)
      else runChunks env (chunksOf items) env.resps []) = _
    rw [hne]
    rfl
  rw [hrb]
  obtain ⟨hs, hr⟩ := runChunks_abort env (chunksOf items) env.resps [] j hj hfail hpre
  refine ⟨hs, ?_, ?_⟩
  · rw [hr]
    rfl
  · intro k
    have := runChunks_results_mem env (chunksOf items) env.resps [] k
    simpa [dictMemB] using this

/-- C5: with no renderer process, a batch render returns the empty
mapping with no message sent and no event, and on_post_page returns the
page output unchanged. -/
theorem c5_fail_open (items : List BatchItem) (env : IPCEnv) (penv : PageEnv)
    (contents : List (List Char)) :
    renderLatexBatch false items env = ⟨[], 0, []⟩ ∧
      onPostPage false penv contents = ⟨true, [], [], ⟨[], 0, []⟩, penv.db⟩ :=
  ⟨rfl, rfl⟩

/-- C7: shutdown on a live process closes stdin, waits up to 5 seconds,
and on timeout warns, kills, and reaps with an unbounded wait; with no
process nothing happens. -/
theorem c7_shutdown (b1 b2 : Bool) :
    shutdownProcess true true true =
        [ShutdownStep.closeStdin, ShutdownStep.waitWithTimeoutSecs 5] ∧
      shutdownProcess true true false =
        [ShutdownStep.closeStdin, ShutdownStep.waitWithTimeoutSecs 5, ShutdownStep.warnTimeout,
          ShutdownStep.killProc, ShutdownStep.waitReap] ∧
      shutdownProcess false b1 b2 = [] :=
  ⟨rfl, rfl, rfl⟩

/-- C8: when opening or initializing the cache store fails, db_conn is
None and the build continues: no cache lookups succeed (cached empty),
every formula goes to the renderer with no cache_key, and no write-back
happens. -/
theorem c8_cache_disabled (fresh : CacheDB) (H : List Char → List Char) (ipc : IPCEnv)
    (wf : Bool) (contents : List (List Char)) :
    initCacheDb true fresh = none ∧
      (onPostPage true ⟨H, none, ipc, wf⟩ contents).cached = [] ∧
      (onPostPage true ⟨H, none, ipc, wf⟩ contents).pending =
        (idxFrom 0 contents).map
          (fun ic => ⟨ic.1, (classify ic.2).1, (classify ic.2).2, none⟩) ∧
      (onPostPage true ⟨H, none, ipc, wf⟩ contents).db = none := by
  obtain ⟨hp, hc⟩ := pending_dbNone H contents 0
  refine ⟨rfl, ?_, ?_, rfl⟩
  · show mkCached ((idxFrom 0 contents).map (fun ic => processElem H none ic.1 ic.2)) = []
    exact hc
  · show mkPending ((idxFrom 0 contents).map (fun ic => processElem H none ic.1 ic.2)) = _
    exact hp

/-- C3 witness: one chunk whose response line is empty (EOF). -/
theorem c3_abort_keeps_resolved_witness :
    0 < (chunksOf ([⟨0, ['x'], false, none⟩] : List BatchItem)).length ∧
      isFailResp (([ChunkResponse.eof] : List ChunkResponse).getD 0 ChunkResponse.eof) = true ∧
      (renderLatexBatch true [⟨0, ['x'], false, none⟩]
        ⟨[ChunkResponse.eof], false, false⟩).sent = 0 + 1 :=
  ⟨by decide, by decide,
    (c3_abort_keeps_resolved [⟨0, ['x'], false, none⟩] ⟨[ChunkResponse.eof], false, false⟩ 0
      (by decide) (by decide) (by decide)).1⟩

/-- C4: the cache key is H applied to the string built from the trimmed
formula and the Python str of the mode, so it is invariant under
trimming the formula, and under an injective digest (the spec assumes
SHA-256 collision-freedom) the keys for the two modes differ. -/
theorem c4_cache_key_props (H : List Char → List Char) (hinj : Function.Injective H)
    (f : List Char) (m : Bool) :
    cacheKey H f m = cacheKey H (pyStrip f) m ∧ cacheKey H f m ≠ cacheKey H f (!m) := by
  constructor
  · unfold cacheKey
    rw [hashInput_strip]
  · intro h
    exact hashInput_mode_ne f m (hinj h)

/-- C4 witness: the identity digest is injective; instantiate at " x ". -/
theorem c4_cache_key_props_witness :
    Function.Injective (fun l : List Char => l) ∧
      (cacheKey (fun l : List Char => l) (' ' :: 'x' :: [' ']) true =
          cacheKey (fun l : List Char => l) (pyStrip (' ' :: 'x' :: [' '])) true ∧
        cacheKey (fun l : List Char => l) (' ' :: 'x' :: [' ']) true ≠
          cacheKey (fun l : List Char => l) (' ' :: 'x' :: [' ']) (!true)) :=
  ⟨fun _ _ h => h,
    c4_cache_key_props (fun l : List Char => l) (fun _ _ h => h) (' ' :: 'x' :: [' ']) true⟩

/-- C6: a failing write-back transaction leaves the table untouched and
does not change the returned mapping; a succeeding one writes every new
successful result in a single fold, keeps at most one row per key, and
makes every eligible item's key present. -/
theorem c6_write_back_transaction (H : List Char → List Char) (db0 : CacheDB) (ipc : IPCEnv)
    (contents : List (List Char)) (hnodup : (db0.map Prod.fst).Nodup) :
    (onPostPage true ⟨H, some db0, ipc, true⟩ contents).db = some db0 ∧
      (onPostPage true ⟨H, some db0, ipc, true⟩ contents).cached =
        (onPostPage true ⟨H, some db0, ipc, false⟩ contents).cached ∧
      (onPostPage true ⟨H, some db0, ipc, true⟩ contents).batch =
        (onPostPage true ⟨H, some db0, ipc, false⟩ contents).batch ∧
      (∀ db1, (onPostPage true ⟨H, some db0, ipc, false⟩ contents).db = some db1 →
        (db1.map Prod.fst).Nodup) ∧
      ((onPostPage true ⟨H, some db0, ipc, false⟩ contents).batch.results.isEmpty = false →
        (onPostPage true ⟨H, some db0, ipc, false⟩ contents).db =
          some (writeBack db0 (onPostPage true ⟨H, some db0, ipc, false⟩ contents).pending
            (onPostPage true ⟨H, some db0, ipc, false⟩ contents).batch.results)) ∧
      (∀ it ∈ (onPostPage true ⟨H, some db0, ipc, false⟩ contents).pending,
        dictMemB (onPostPage true ⟨H, some db0, ipc, false⟩ contents).batch.results it.id = true →
        keyTruthy it.cache_key = true →
        ∃ db1, (onPostPage true ⟨H, some db0, ipc, false⟩ contents).db = some db1 ∧
          db1.any (fun p => p.1 == it.cache_key.getD []) = true) := by
  have hdb : ∀ wf : Bool, (onPostPage true ⟨H, some db0, ipc, wf⟩ contents).db =
      (if !(onPostPage true ⟨H, some db0, ipc, wf⟩ contents).batch.results.isEmpty then
        (if wf then some db0
         else some (writeBack db0 (onPostPage true ⟨H, some db0, ipc, wf⟩ contents).pending
           (onPostPage true ⟨H, some db0, ipc, wf⟩ contents).batch.results))
       else some db0) := fun _ => rfl
  refine ⟨?_, rfl, rfl, ?_, ?_, ?_⟩
  · rw [hdb true]
    show (if (!(onPostPage true ⟨H, some db0, ipc, true⟩ contents).batch.results.isEmpty) = true
      then some db0 else some db0) = some db0
    exact ite_self _
  · intro db1 h
    rw [hdb false] at h
    cases hB : (onPostPage true ⟨H, some db0, ipc, false⟩ contents).batch.results.isEmpty with
    | true =>
      rw [hB] at h
      simp at h
      subst h
      exact hnodup
    | false =>
      rw [hB] at h
      simp at h
      subst h
      exact writeBack_nodup _ _ _ hnodup
  · intro hne
    rw [hdb false, hne]
    rfl
  · intro it hit hm hk
    have hne := dictMemB_ne_empty _ _ hm
    refine ⟨writeBack db0 (onPostPage true ⟨H, some db0, ipc, false⟩ contents).pending
        (onPostPage true ⟨H, some db0, ipc, false⟩ contents).batch.results, ?_,
        writeBack_has_key _ _ _ it hit hm hk⟩
    rw [hdb false, hne]
    rfl

/-- C6 witness: empty table, empty page. -/
theorem c6_write_back_transaction_witness :
    (([] : CacheDB).map Prod.fst).Nodup ∧
      (onPostPage true ⟨fun l => l, some [], ⟨[], false, false⟩, true⟩ []).db = some [] :=
  ⟨by decide,
    (c6_write_back_transaction (fun l => l) [] ⟨[], false, false⟩ [] (by decide)).1⟩

/-- C9 counterexample: a read that returns no line (EOF) while the
process has already exited and stderr holds content: the loop logs the
EOF and aborts, but never polls the process and never drains stderr,
contradicting the claim that every read failure is checked against
process liveness with stderr surfaced. -/
theorem c9_counterexample :
    Event.eofLogged ∈ (renderLatexBatch true [⟨0, ['x'], false, none⟩]
        ⟨[ChunkResponse.eof], true, true⟩).events ∧
      Event.polled ∉ (renderLatexBatch true [⟨0, ['x'], false, none⟩]
        ⟨[ChunkResponse.eof], true, true⟩).events ∧
      Event.stderrDrained ∉ (renderLatexBatch true [⟨0, ['x'], false, none⟩]
        ⟨[ChunkResponse.eof], true, true⟩).events := by
  refine ⟨?_, ?_, ?_⟩ <;> decide

/-- C9 amended: only when the read fails by raising an exception does
the handler poll the process, and only then, when poll reports exit, is
stderr drained (and surfaced when non-empty); an EOF read aborts with
neither the liveness check nor the drain. -/
theorem c9_exn_path_polls (items : List BatchItem) (env : IPCEnv) (j : Nat)
    (hj : j < (chunksOf items).length)
    (hfail : isFailResp (env.resps.getD j ChunkResponse.eof) = true)
    (hpre : ∀ i < j, isFailResp (env.resps.getD i ChunkResponse.eof) = false) :
    ((Event.polled ∈ (renderLatexBatch true items env).events ↔
        env.resps.getD j ChunkResponse.eof = ChunkResponse.readExn) ∧
      (Event.stderrDrained ∈ (renderLatexBatch true items env).events ↔
        (env.resps.getD j ChunkResponse.eof = ChunkResponse.readExn ∧ env.procExited = true)) ∧
      (Event.stderrLogged ∈ (renderLatexBatch true items env).events ↔
        (env.resps.getD j ChunkResponse.eof = ChunkResponse.readExn ∧ env.procExited = true ∧
          env.stderrNonempty = true))) := by
  have hne : items.isEmpty = false := by
    cases items
    · simp [chunksOf, chunksOfAux] at hj
    · rfl
  have hrb : renderLatexBatch true items env = runChunks env (chunksOf items) env.resps [] := by
    show (if !true || items.isEmpty then (⟨[], 0, []⟩ : BatchOutcome)
      else runChunks env (chunksOf items) env.resps []) = _
    rw [hne]
    rfl
  rw [hrb]
  exact runChunks_events_fail env (chunksOf items) env.resps [] j hj hfail hpre

/-- C9 witness: an exception read on the first chunk with the process
dead and stderr non-empty. -/
theorem c9_exn_path_polls_witness :
    Event.polled ∈ (renderLatexBatch true [⟨0, ['x'], false, none⟩]
      ⟨[ChunkResponse.readExn], true, true⟩).events :=
  ((c9_exn_path_polls [⟨0, ['x'], false, none⟩] ⟨[ChunkResponse.readExn], true, true⟩ 0
      (by decide) (by decide) (by decide)).1).mpr (by decide)

/-- C10: any element text that starts and ends with two dollar signs is
captured by the earlier single-dollar branch: exactly one dollar is
stripped from each end (the inner dollars stay in the latex) and
displayMode is false; the dedicated double-dollar branch never fires. -/
theorem c10_double_dollar_shadowed :
    (∀ c : List Char, classifyBranch c ≠ 3) ∧
      (∀ c : List Char, startsW ['$', '$'] c = true → endsW ['$', '$'] c = true →
        classify c = ((c.drop 1).rdrop 1, false)) := by
  constructor
  · intro c h3
    unfold classifyBranch at h3
    by_cases ha : (startsW ['\\', '('] c && endsW ['\\', ')'] c) = true
    · rw [if_pos ha] at h3
      exact absurd h3 (by decide)
    · rw [if_neg ha] at h3
      by_cases hb : (startsW ['\\', '['] c && endsW ['\\', ']'] c) = true
      · rw [if_pos hb] at h3
        exact absurd h3 (by decide)
      · rw [if_neg hb] at h3
        by_cases hc : (startsW ['$'] c && endsW ['$'] c) = true
        · rw [if_pos hc] at h3
          exact absurd h3 (by decide)
        · by_cases h4 : (startsW ['$', '$'] c && endsW ['$', '$'] c) = true
          · rw [Bool.and_eq_true] at h4
            exact hc (by
              rw [Bool.and_eq_true]
              exact ⟨startsW_pair_to_single h4.1, endsW_pair_to_single h4.2⟩)
          · rw [if_neg hc, if_neg h4] at h3
            exact absurd h3 (by decide)
  · intro c hp hs
    obtain ⟨t, rfl⟩ := isPrefixOf_pair_ex hp
    have hs1 : endsW ['$'] ('$' :: '$' :: t) = true := endsW_pair_to_single hs
    show (if (startsW ['$'] ('$' :: '$' :: t) && endsW ['$'] ('$' :: '$' :: t)) = true
        then ((('$' :: '$' :: t).drop 1).rdrop 1, false)
        else if (startsW ['$', '$'] ('$' :: '$' :: t) &&
            endsW ['$', '$'] ('$' :: '$' :: t)) = true
        then ((('$' :: '$' :: t).drop 2).rdrop 2, true)
        else ('$' :: '$' :: t, false)) = ((('$' :: '$' :: t).drop 1).rdrop 1, false)
    rw [if_pos]
    rw [show startsW ['$'] ('$' :: '$' :: t) = true from rfl, hs1]
    rfl

/-- C10 witness: the element text dollar dollar x dollar dollar. -/
theorem c10_double_dollar_shadowed_witness :
    startsW ['$', '$'] ('$' :: '$' :: 'x' :: '$' :: ['$']) = true ∧
      endsW ['$', '$'] ('$' :: '$' :: 'x' :: '$' :: ['$']) = true ∧
      classify ('$' :: '$' :: 'x' :: '$' :: ['$']) =
        ((('$' :: '$' :: 'x' :: '$' :: ['$']).drop 1).rdrop 1, false) :=
  ⟨by decide, by decide,
    c10_double_dollar_shadowed.2 ('$' :: '$' :: 'x' :: '$' :: ['$']) (by decide) (by decide)⟩

end KatexSSR
